import Mathlib

/-! AllpassFilter: the C++ client wrapper and the filter engine behind it

`src/cpp_client/allpass_filter.hpp` declares seven C-linkage engine functions
(`allpass_create`, `allpass_destroy`, `allpass_process`, `allpass_process_block`,
`allpass_set_delay`, `allpass_set_gain`, `allpass_set_smoothing`) and the class
`AllPassFilter` that owns one `CAllPass*` handle and forwards to them.

The class is embedded from the header.  The bodies of the engine functions are not
part of the client sources; they are modelled from the specification (section 4.1)
and every such definition says so in its doc comment.

Samples are `float` in the source.  They are embedded in an arbitrary linearly ordered
field with a floor function, so that the same definitions run on `ℚ` and can be
reasoned about on `ℝ`; rounding is not modelled.
-/

namespace AllpassFilter

set_option autoImplicit false
set_option linter.unusedSectionVars false

variable {α : Type} [LinearOrderedField α] [FloorRing α]

/-! ## The engine -/

/-- Modelled from the spec: `clamp(x, lo, hi)`, the value of `x` brought into `[lo, hi]`. -/
def clamp (x lo hi : α) : α := max lo (min x hi)

/-- Modelled from the spec: the FilterEngine entity of section 3 (the struct behind
`CAllPass`, whose declaration is not in the client sources). -/
structure FilterEngine (α : Type) where
  capacity : Nat
  buffer : List α
  write_cursor : Nat
  current_delay : α
  target_delay : α
  current_gain : α
  target_gain : α
  smoothing_factor : α
deriving DecidableEq

/-- Modelled from the spec: the only rejected input of the engine (section 7). -/
inductive EngineError where
  | InvalidCapacity
deriving DecidableEq

/-- Modelled from the spec: the two constants section 4.1 leaves open, the default
smoothing factor of a new engine and the `ε` of `set_smoothing`. -/
structure EngineConsts (α : Type) where
  default_smoothing : α
  epsilon : α
deriving DecidableEq

/-- Modelled from the spec: `create(capacity, initial_delay, initial_gain)` of section 4.1:
a zero-filled buffer, cursor 0, clamped delay and gain, default smoothing; capacity 0 is
rejected with `InvalidCapacity`. -/
def FilterEngine.create (default_smoothing : α) (capacity : Nat) (initial_delay initial_gain : α) :
    Except EngineError (FilterEngine α) :=
  if capacity = 0 then .error .InvalidCapacity
  else .ok {
    capacity := capacity
    buffer := List.replicate capacity 0
    write_cursor := 0
    current_delay := clamp initial_delay 0 (capacity : α)
    target_delay := clamp initial_delay 0 (capacity : α)
    current_gain := clamp initial_gain (-1) 1
    target_gain := clamp initial_gain (-1) 1
    smoothing_factor := default_smoothing }

/-- Modelled from the spec: one smoothing step,
`current + (target - current) * (1 - smoothing_factor)` (step 1 of `process`). -/
def smooth_step (current target s : α) : α := current + (target - current) * (1 - s)

/-- Modelled from the spec: `x mod c` on sample values (step 2 of `process`). -/
def fmod (x c : α) : α := x - c * (⌊x / c⌋ : α)

/-- Modelled from the spec: `process(input) → output`, steps 1 to 6 of section 4.1. -/
def FilterEngine.process (e : FilterEngine α) (input : α) : FilterEngine α × α :=
  let current_delay := smooth_step e.current_delay e.target_delay e.smoothing_factor
  let current_gain := smooth_step e.current_gain e.target_gain e.smoothing_factor
  let read_pos := fmod ((e.write_cursor : α) - current_delay + (e.capacity : α)) (e.capacity : α)
  let i0 := ⌊read_pos⌋.toNat
  let i1 := (i0 + 1) % e.capacity
  let frac := Int.fract read_pos
  let delayed := e.buffer.getD i0 0 * (1 - frac) + e.buffer.getD i1 0 * frac
  let stored := input + current_gain * delayed
  let output := delayed - current_gain * stored
  ({ e with
      buffer := e.buffer.set e.write_cursor stored
      write_cursor := (e.write_cursor + 1) % e.capacity
      current_delay := current_delay
      current_gain := current_gain }, output)

/-- Modelled from the spec: `process_block(input_sequence) → output_sequence`, `process`
applied to each input sample in order. -/
def FilterEngine.process_block (e : FilterEngine α) : List α → FilterEngine α × List α
  | [] => (e, [])
  | x :: xs =>
    let r := e.process x
    let rs := FilterEngine.process_block r.1 xs
    (rs.1, r.2 :: rs.2)

/-- Modelled from the spec: `set_delay(new_delay)` sets
`target_delay = clamp(new_delay, 0, capacity)`. -/
def FilterEngine.set_delay (e : FilterEngine α) (new_delay : α) : FilterEngine α :=
  { e with target_delay := clamp new_delay 0 (e.capacity : α) }

/-- Modelled from the spec: `set_gain(new_gain)` sets `target_gain = clamp(new_gain, -1, 1)`. -/
def FilterEngine.set_gain (e : FilterEngine α) (new_gain : α) : FilterEngine α :=
  { e with target_gain := clamp new_gain (-1) 1 }

/-- Modelled from the spec: `set_smoothing(factor)` sets
`smoothing_factor = clamp(factor, 0, 1 - ε)`. -/
def FilterEngine.set_smoothing (epsilon : α) (e : FilterEngine α) (factor : α) : FilterEngine α :=
  { e with smoothing_factor := clamp factor 0 (1 - epsilon) }

/-! ## The C boundary between the class and the engine -/

/-- One call through the C boundary, with the arguments it was given (`create` also
records the pointer it returned).  A `CAllPass*` is a natural number: `0` is `nullptr`,
`n + 1` addresses slot `n` of the engine heap. -/
inductive FfiCall (α : Type) where
  | create (max_delay : Nat) (initial_delay gain : α) (ret : Nat)
  | destroy (ptr : Nat)
  | process (ptr : Nat) (input : α)
  | process_block (ptr : Nat) (input : List α) (len : Nat)
  | set_delay (ptr : Nat) (delay : α)
  | set_gain (ptr : Nat) (gain : α)
  | set_smoothing (ptr : Nat) (factor : α)
deriving DecidableEq

/-- The `CAllPass*` argument of a call (`create` takes none). -/
def FfiCall.handle_arg : FfiCall α → Option Nat
  | .create _ _ _ _ => none
  | .destroy ptr => some ptr
  | .process ptr _ => some ptr
  | .process_block ptr _ _ => some ptr
  | .set_delay ptr _ => some ptr
  | .set_gain ptr _ => some ptr
  | .set_smoothing ptr _ => some ptr

/-- What lies on the engine side of the boundary: the engines allocated so far (a slot
is `none` once its engine was destroyed), the calls made so far in order, and whether an
engine function was ever handed a pointer that addresses no engine. -/
structure World (α : Type) where
  consts : EngineConsts α
  heap : List (Option (FilterEngine α))
  calls : List (FfiCall α)
  fault : Bool
deriving DecidableEq

/-- The state before any call. -/
def World.init (consts : EngineConsts α) : World α :=
  { consts := consts, heap := [], calls := [], fault := false }

/-- The engine a pointer addresses, if any. -/
def World.engine_at (w : World α) (ptr : Nat) : Option (FilterEngine α) :=
  if ptr = 0 then none else (w.heap.getD (ptr - 1) none)

/-- Modelled from the spec: `allpass_create` (declared at allpass_filter.hpp:8, body not in
the client sources) is `create` of section 4.1; a rejected capacity yields `nullptr`, a
success a pointer to a newly allocated engine. -/
def allpass_create (w : World α) (max_delay : Nat) (initial_delay gain : α) : World α × Nat :=
  match FilterEngine.create w.consts.default_smoothing max_delay initial_delay gain with
  | .error _ =>
    ({ w with calls := w.calls ++ [.create max_delay initial_delay gain 0] }, 0)
  | .ok e =>
    ({ w with
        heap := w.heap ++ [some e]
        calls := w.calls ++ [.create max_delay initial_delay gain (w.heap.length + 1)] },
     w.heap.length + 1)

/-- Modelled from the spec: `allpass_destroy` (allpass_filter.hpp:9) is `destroy(handle)` of
section 6: it releases the engine.  A pointer that addresses no engine is recorded as a
fault. -/
def allpass_destroy (w : World α) (ptr : Nat) : World α :=
  match w.engine_at ptr with
  | none => { w with calls := w.calls ++ [.destroy ptr], fault := true }
  | some _ => { w with calls := w.calls ++ [.destroy ptr], heap := w.heap.set (ptr - 1) none }

/-- Modelled from the spec: `allpass_process` (allpass_filter.hpp:10) is `process` of
section 4.1 on the engine behind the pointer.  A pointer that addresses no engine is
recorded as a fault (the value returned is then not specified; the model gives 0). -/
def allpass_process (w : World α) (ptr : Nat) (input : α) : World α × α :=
  match w.engine_at ptr with
  | none => ({ w with calls := w.calls ++ [.process ptr input], fault := true }, 0)
  | some e =>
    ({ w with
        calls := w.calls ++ [.process ptr input]
        heap := w.heap.set (ptr - 1) (some (e.process input).1) },
     (e.process input).2)

/-- Modelled from the spec: `allpass_process_block` (allpass_filter.hpp:11) is
`process_block` of section 4.1 on the first `len` input samples, the results overwriting
`output[0..len-1]` in order; the rest of the output memory is not written. -/
def allpass_process_block (w : World α) (ptr : Nat) (input output : List α) (len : Nat) :
    World α × List α :=
  match w.engine_at ptr with
  | none => ({ w with calls := w.calls ++ [.process_block ptr input len], fault := true }, output)
  | some e =>
    ({ w with
        calls := w.calls ++ [.process_block ptr input len]
        heap := w.heap.set (ptr - 1) (some (e.process_block (input.take len)).1) },
     (e.process_block (input.take len)).2 ++ output.drop len)

/-- Modelled from the spec: `allpass_set_delay` (allpass_filter.hpp:12) is `set_delay` of
section 4.1 on the engine behind the pointer. -/
def allpass_set_delay (w : World α) (ptr : Nat) (delay : α) : World α :=
  match w.engine_at ptr with
  | none => { w with calls := w.calls ++ [.set_delay ptr delay], fault := true }
  | some e =>
    { w with
      calls := w.calls ++ [.set_delay ptr delay]
      heap := w.heap.set (ptr - 1) (some (e.set_delay delay)) }

/-- Modelled from the spec: `allpass_set_gain` (allpass_filter.hpp:13) is `set_gain` of
section 4.1 on the engine behind the pointer. -/
def allpass_set_gain (w : World α) (ptr : Nat) (gain : α) : World α :=
  match w.engine_at ptr with
  | none => { w with calls := w.calls ++ [.set_gain ptr gain], fault := true }
  | some e =>
    { w with
      calls := w.calls ++ [.set_gain ptr gain]
      heap := w.heap.set (ptr - 1) (some (e.set_gain gain)) }

/-- Modelled from the spec: `allpass_set_smoothing` (allpass_filter.hpp:14) is
`set_smoothing` of section 4.1 on the engine behind the pointer. -/
def allpass_set_smoothing (w : World α) (ptr : Nat) (factor : α) : World α :=
  match w.engine_at ptr with
  | none => { w with calls := w.calls ++ [.set_smoothing ptr factor], fault := true }
  | some e =>
    { w with
      calls := w.calls ++ [.set_smoothing ptr factor]
      heap := w.heap.set (ptr - 1) (some (FilterEngine.set_smoothing w.consts.epsilon e factor)) }

/-! ## The class `AllPassFilter` (allpass_filter.hpp:17-63) -/

/-- The class: its only data member is `CAllPass* handle`. -/
structure AllPassFilter where
  handle : Nat
deriving DecidableEq

/-- What a member function leaves behind: the engine side, the object itself, and the
value returned (or, for `process_block`, the `output` vector passed by reference). -/
structure Ret (α β : Type) where
  world : World α
  self : AllPassFilter
  value : β

/-- The constructor (lines 22-24): `handle = allpass_create(max_delay, initial_delay, gain)`. -/
def AllPassFilter.ctor (w : World α) (max_delay : Nat) (initial_delay gain : α) :
    World α × AllPassFilter :=
  ((allpass_create w max_delay initial_delay gain).1,
   { handle := (allpass_create w max_delay initial_delay gain).2 })

/-- The destructor (lines 26-31): a non-null handle is destroyed and then set to `nullptr`. -/
def AllPassFilter.dtor (self : AllPassFilter) (w : World α) : World α × AllPassFilter :=
  if self.handle ≠ 0 then (allpass_destroy w self.handle, { handle := 0 })
  else (w, self)

/-- The move constructor (lines 36-38): the new object takes `other.handle` and `other` is
left with `nullptr`.  The result is the new object and `other` after the move. -/
def AllPassFilter.move_ctor (other : AllPassFilter) : AllPassFilter × AllPassFilter :=
  ({ handle := other.handle }, { handle := 0 })

/-- Member `process` (lines 40-42). -/
def AllPassFilter.process (self : AllPassFilter) (w : World α) (input : α) : Ret α α :=
  { world := (allpass_process w self.handle input).1
    self := self
    value := (allpass_process w self.handle input).2 }

/-- The effect of `std::vector<float>::resize(n)`: truncation, or growth by zeros. -/
def resize (v : List α) (n : Nat) : List α :=
  v.take n ++ List.replicate (n - v.length) 0

/-- Member `process_block` (lines 44-50): `output` is grown to the input length when it is
shorter, then the engine is called with `len = input.size()`. -/
def AllPassFilter.process_block (self : AllPassFilter) (w : World α) (input output : List α) :
    Ret α (List α) :=
  let output1 := if output.length < input.length then resize output input.length else output
  { world := (allpass_process_block w self.handle input output1 input.length).1
    self := self
    value := (allpass_process_block w self.handle input output1 input.length).2 }

/-- Member `set_delay` (lines 52-54). -/
def AllPassFilter.set_delay (self : AllPassFilter) (w : World α) (delay : α) : Ret α Unit :=
  { world := allpass_set_delay w self.handle delay, self := self, value := () }

/-- Member `set_gain` (lines 56-58). -/
def AllPassFilter.set_gain (self : AllPassFilter) (w : World α) (gain : α) : Ret α Unit :=
  { world := allpass_set_gain w self.handle gain, self := self, value := () }

/-- Member `set_smoothing` (lines 60-62). -/
def AllPassFilter.set_smoothing (self : AllPassFilter) (w : World α) (factor : α) : Ret α Unit :=
  { world := allpass_set_smoothing w self.handle factor, self := self, value := () }

/-! ## Sequences of member calls and of object lifetimes -/

/-- The loop of main.cpp:12-16: `process` called once per sample, in order, the returned
values collected in order. -/
def AllPassFilter.process_each (self : AllPassFilter) (w : World α) : List α → Ret α (List α)
  | [] => { world := w, self := self, value := [] }
  | x :: xs =>
    let r := self.process w x
    let rs := AllPassFilter.process_each r.self r.world xs
    { world := rs.world, self := rs.self, value := r.value :: rs.value }

/-- A call of one of the five forwarding members, with its arguments. -/
inductive MethodCall (α : Type) where
  | process (input : α)
  | process_block (input output : List α)
  | set_delay (delay : α)
  | set_gain (gain : α)
  | set_smoothing (factor : α)
deriving DecidableEq

/-- One member call on an object: the engine side and the object afterwards. -/
def AllPassFilter.invoke (self : AllPassFilter) (w : World α) :
    MethodCall α → World α × AllPassFilter
  | .process x => ((self.process w x).world, (self.process w x).self)
  | .process_block i o => ((self.process_block w i o).world, (self.process_block w i o).self)
  | .set_delay x => ((self.set_delay w x).world, (self.set_delay w x).self)
  | .set_gain x => ((self.set_gain w x).world, (self.set_gain w x).self)
  | .set_smoothing x => ((self.set_smoothing w x).world, (self.set_smoothing w x).self)

/-- Member calls on one object, one after the other. -/
def AllPassFilter.invoke_all (self : AllPassFilter) (w : World α) :
    List (MethodCall α) → World α × AllPassFilter
  | [] => (w, self)
  | c :: cs => AllPassFilter.invoke_all (self.invoke w c).2 (self.invoke w c).1 cs

/-- What a program can do with the lifetime of `AllPassFilter` objects: construct one,
move-construct one from an existing object, run the destructor of one.  Objects are named
by their position in construction order.  Copying is deleted (lines 33-34). -/
inductive LifecycleOp (α : Type) where
  | construct (max_delay : Nat) (initial_delay gain : α)
  | move_construct (src : Nat)
  | destruct (obj : Nat)
deriving DecidableEq

/-- An object of the program: its member `handle`, and whether its destructor has run. -/
structure Obj where
  filter : AllPassFilter
  destroyed : Bool
deriving DecidableEq

/-- A running program: the engine side and every object constructed so far. -/
structure Program (α : Type) where
  world : World α
  objects : List Obj
deriving DecidableEq

/-- The program before it constructs anything. -/
def Program.init (consts : EngineConsts α) : Program α :=
  { world := World.init consts, objects := [] }

/-- One lifetime operation.  An operation naming an object that was never constructed does
nothing.  The destructor may be run on any constructed object, also a second time, and any
constructed object may be moved from: the model admits more than C++ does. -/
def Program.step (p : Program α) : LifecycleOp α → Program α
  | .construct m d g =>
    { world := (AllPassFilter.ctor p.world m d g).1
      objects := p.objects ++ [{ filter := (AllPassFilter.ctor p.world m d g).2, destroyed := false }] }
  | .move_construct src =>
    match p.objects[src]? with
    | none => p
    | some o =>
      { world := p.world
        objects := p.objects.set src { filter := o.filter.move_ctor.2, destroyed := o.destroyed }
          ++ [{ filter := o.filter.move_ctor.1, destroyed := false }] }
  | .destruct obj =>
    match p.objects[obj]? with
    | none => p
    | some o =>
      { world := (o.filter.dtor p.world).1
        objects := p.objects.set obj { filter := (o.filter.dtor p.world).2, destroyed := true } }

/-- A sequence of lifetime operations. -/
def Program.run (p : Program α) : List (LifecycleOp α) → Program α
  | [] => p
  | op :: ops => Program.run (p.step op) ops

/-- The pointers returned by `allpass_create`, in call order. -/
def created_handles : List (FfiCall α) → List Nat
  | [] => []
  | .create _ _ _ ret :: cs => ret :: created_handles cs
  | _ :: cs => created_handles cs

/-- The pointers passed to `allpass_destroy`, in call order. -/
def destroyed_handles : List (FfiCall α) → List Nat
  | [] => []
  | .destroy ptr :: cs => ptr :: destroyed_handles cs
  | _ :: cs => destroyed_handles cs

/-- The non-null handles held by the objects of a program. -/
def held_handles (objects : List Obj) : List Nat :=
  (objects.map (fun o => o.filter.handle)).filter (fun h => h ≠ 0)

/-- Two states of the engine side are indistinguishable through an object: the same
engines, the same fault record, and the same values returned by every later run of
`process` calls. -/
def behaves_as (self : AllPassFilter) (w1 w2 : World α) : Prop :=
  w1.heap = w2.heap ∧ w1.fault = w2.fault
    ∧ ∀ S : List α, (self.process_each w1 S).value = (self.process_each w2 S).value

/-- The constants used in the concrete runs below. -/
def demo_consts : EngineConsts ℚ := { default_smoothing := 1 / 2, epsilon := 1 / 1000 }

/-- A small object, `AllPassFilter(4, 2, 0.5)`, constructed first. -/
def demo_small : World ℚ × AllPassFilter :=
  AllPassFilter.ctor (World.init demo_consts) 4 2 (1 / 2)

/-- The run of main.cpp:7-16 with the smoothing switched off: an object is constructed
with `(capacity, d, g)`, `set_smoothing(0)` is called, and `process` is fed the impulse
`1` followed by `n` zeros.  The result is the list of the values returned. -/
def impulse_outputs (w : World α) (capacity : Nat) (d g : α) (n : Nat) : List α :=
  ((AllPassFilter.ctor w capacity d g).2.process_each
    ((AllPassFilter.ctor w capacity d g).2.set_smoothing
      (AllPassFilter.ctor w capacity d g).1 0).world
    (1 :: List.replicate n 0)).value

/-- The engine of capacity `capacity`, integral delay `d` and gain `g` whose buffer holds
the impulse in slot 0 and zeros elsewhere, with the write cursor where `n` samples leave
it. -/
def impulse_state (capacity d : Nat) (g s : α) (n : Nat) : FilterEngine α :=
  { capacity := capacity
    buffer := 1 :: List.replicate (capacity - 1) 0
    write_cursor := n % capacity
    current_delay := (d : α)
    target_delay := (d : α)
    current_gain := g
    target_gain := g
    smoothing_factor := s }

/-- The engine `create(capacity, d, g)` returns for an integral delay `d` and a gain `g`
that are in range, with smoothing factor `s`. -/
def fresh_state (capacity d : Nat) (g s : α) : FilterEngine α :=
  { capacity := capacity
    buffer := List.replicate capacity 0
    write_cursor := 0
    current_delay := (d : α)
    target_delay := (d : α)
    current_gain := g
    target_gain := g
    smoothing_factor := s }

/-- What every reachable program satisfies: the non-null pointers `allpass_create` has
returned are pairwise distinct, and each of them is either held by exactly one object or
was passed to `allpass_destroy` exactly once; a held handle addresses an engine; an
object whose destructor has run holds `nullptr`; no fault was recorded. -/
structure LifecycleInv (p : Program α) : Prop where
  created_nodup : ((created_handles p.world.calls).filter (fun h => h ≠ 0)).Nodup
  balance : List.Perm ((created_handles p.world.calls).filter (fun h => h ≠ 0))
    (held_handles p.objects ++ destroyed_handles p.world.calls)
  created_le : ∀ h ∈ created_handles p.world.calls, h ≤ p.world.heap.length
  held_live : ∀ h ∈ held_handles p.objects, ∃ e, p.world.engine_at h = some e
  destroyed_null : ∀ o ∈ p.objects, o.destroyed = true → o.filter.handle = 0
  no_fault : p.world.fault = false

/-- The engine `create(2, 0.5, 0)` returns: capacity 2, a delay of half a sample, gain 0,
smoothing factor `s`. -/
def half_state (s : α) : FilterEngine α :=
  { capacity := 2
    buffer := [0, 0]
    write_cursor := 0
    current_delay := 1 / 2
    target_delay := 1 / 2
    current_gain := 0
    target_gain := 0
    smoothing_factor := s }

/-! ## The wrapper forwards -/

/-- C10: every forwarding member makes exactly one engine call, with the handle of the
object and the argument unchanged, returns what the engine returned, and leaves the
member `handle` as it was. -/
theorem wrapper_is_transparent_forwarder (self : AllPassFilter) (w : World α) (x : α) :
    ((self.process w x).world = (allpass_process w self.handle x).1
      ∧ (self.process w x).value = (allpass_process w self.handle x).2
      ∧ (self.process w x).world.calls = w.calls ++ [FfiCall.process self.handle x]
      ∧ (self.process w x).self = self)
    ∧ ((self.set_delay w x).world = allpass_set_delay w self.handle x
      ∧ (self.set_delay w x).world.calls = w.calls ++ [FfiCall.set_delay self.handle x]
      ∧ (self.set_delay w x).self = self)
    ∧ ((self.set_gain w x).world = allpass_set_gain w self.handle x
      ∧ (self.set_gain w x).world.calls = w.calls ++ [FfiCall.set_gain self.handle x]
      ∧ (self.set_gain w x).self = self)
    ∧ ((self.set_smoothing w x).world = allpass_set_smoothing w self.handle x
      ∧ (self.set_smoothing w x).world.calls = w.calls ++ [FfiCall.set_smoothing self.handle x]
      ∧ (self.set_smoothing w x).self = self) := by
  refine ⟨⟨rfl, rfl, ?_, rfl⟩, ⟨rfl, ?_, rfl⟩, ⟨rfl, ?_, rfl⟩, ⟨rfl, ?_, rfl⟩⟩
  · simp only [AllPassFilter.process, allpass_process]; split <;> rfl
  · simp only [AllPassFilter.set_delay, allpass_set_delay]; split <;> rfl
  · simp only [AllPassFilter.set_gain, allpass_set_gain]; split <;> rfl
  · simp only [AllPassFilter.set_smoothing, allpass_set_smoothing]; split <;> rfl

/-! ## Helper lemmas -/

theorem process_block_length (e : FilterEngine α) (xs : List α) :
    (e.process_block xs).2.length = xs.length := by
  induction xs generalizing e with
  | nil => rfl
  | cons x xs ih => simp [FilterEngine.process_block, ih]

theorem allpass_process_block_length (w : World α) (ptr : Nat) (input output : List α)
    (h : input.length ≤ output.length) :
    (allpass_process_block w ptr input output input.length).2.length = output.length := by
  unfold allpass_process_block
  split
  · rfl
  · simp [process_block_length]; omega

theorem allpass_process_block_calls (w : World α) (ptr : Nat) (input output : List α)
    (len : Nat) :
    (allpass_process_block w ptr input output len).1.calls
      = w.calls ++ [FfiCall.process_block ptr input len] := by
  unfold allpass_process_block
  split <;> rfl

theorem allpass_process_block_drop (w : World α) (ptr : Nat) (input output : List α) :
    (allpass_process_block w ptr input output input.length).2.drop input.length
      = output.drop input.length := by
  unfold allpass_process_block
  split
  · rfl
  · rw [List.drop_append_eq_append_drop]
    simp [process_block_length]

theorem resize_length (v : List α) (n : Nat) : (resize v n).length = n := by
  simp [resize]; omega

/-! ## Size and frame of `process_block` -/

/-- C1 (as stated, refuted): an output vector of three elements is still three elements
long after `process_block` with a one-element input. -/
theorem process_block_keeps_longer_output :
    ¬ ((demo_small.2.process_block demo_small.1 [1] [0, 0, 0]).value.length
        = ([1] : List ℚ).length) := by
  decide!

/-- C1 (amended): after `process_block`, the output vector has the length of the input
exactly when it was not longer than the input before the call. -/
theorem process_block_size_eq_iff (self : AllPassFilter) (w : World α) (input output : List α) :
    (self.process_block w input output).value.length = input.length
      ↔ output.length ≤ input.length := by
  unfold AllPassFilter.process_block
  by_cases h : output.length < input.length
  · simp only [h, if_true]
    rw [allpass_process_block_length _ _ _ _ (by rw [resize_length])]
    rw [resize_length]
    simp; omega
  · simp only [h, if_false]
    rw [allpass_process_block_length _ _ _ _ (by omega)]
    omega

/-- C9: `process_block` never shrinks the output vector (its new length is the larger of
its old length and the input length), makes exactly one engine call, with the handle, the
input and `len = input.size()`, and leaves every output element from index
`input.size()` on as it was. -/
theorem process_block_never_shrinks (self : AllPassFilter) (w : World α)
    (input output : List α) :
    (self.process_block w input output).value.length = max output.length input.length
    ∧ (self.process_block w input output).world.calls
        = w.calls ++ [FfiCall.process_block self.handle input input.length]
    ∧ (self.process_block w input output).value.drop input.length
        = output.drop input.length
    ∧ (self.process_block w input output).self = self := by
  refine ⟨?_, ?_, ?_, rfl⟩
  · unfold AllPassFilter.process_block
    by_cases h : output.length < input.length
    · simp only [h, if_true]
      rw [allpass_process_block_length _ _ _ _ (by rw [resize_length]), resize_length]
      omega
    · simp only [h, if_false]
      rw [allpass_process_block_length _ _ _ _ (by omega)]
      omega
  · simp only [AllPassFilter.process_block, allpass_process_block_calls]
  · unfold AllPassFilter.process_block
    by_cases h : output.length < input.length
    · simp only [h, if_true]
      rw [allpass_process_block_drop]
      rw [List.drop_of_length_le (by rw [resize_length]), List.drop_of_length_le (by omega)]
    · simp only [h, if_false]
      rw [allpass_process_block_drop]

theorem getD_set_self {β : Type} (l : List (Option β)) (i : Nat) (v : Option β) (b : β)
    (h : l.getD i none = some b) : (l.set i v).getD i none = v := by
  have hi : i < l.length := by
    by_contra hc
    rw [List.getD_eq_default _ _ (by omega)] at h
    cases h
  simp [List.getD_eq_getElem?_getD, hi]

theorem engine_at_ne_zero (w : World α) (ptr : Nat) (e : FilterEngine α)
    (he : w.engine_at ptr = some e) : ptr ≠ 0 := by
  intro h
  simp [World.engine_at, h] at he

theorem engine_at_getD (w : World α) (ptr : Nat) (e : FilterEngine α)
    (he : w.engine_at ptr = some e) : w.heap.getD (ptr - 1) none = some e := by
  have h0 := engine_at_ne_zero w ptr e he
  simpa [World.engine_at, h0] using he

theorem engine_at_of_heap (w w1 : World α) (ptr : Nat) (e e1 : FilterEngine α)
    (he : w.engine_at ptr = some e) (hh : w1.heap = w.heap.set (ptr - 1) (some e1)) :
    w1.engine_at ptr = some e1 := by
  have h0 := engine_at_ne_zero w ptr e he
  have hg := engine_at_getD w ptr e he
  unfold World.engine_at
  rw [if_neg h0, hh]
  exact getD_set_self _ _ _ _ hg

theorem invoke_spec (self : AllPassFilter) (w : World α) (e : FilterEngine α)
    (he : w.engine_at self.handle = some e) (c : MethodCall α) :
    (self.invoke w c).2 = self
    ∧ (∃ e1, (self.invoke w c).1.engine_at self.handle = some e1)
    ∧ (self.invoke w c).1.fault = w.fault
    ∧ ∃ k, (self.invoke w c).1.calls = w.calls ++ [k] ∧ k.handle_arg = some self.handle := by
  cases c with
  | process x =>
    unfold AllPassFilter.invoke AllPassFilter.process allpass_process
    rw [he]
    exact ⟨rfl, ⟨_, engine_at_of_heap w _ _ _ _ he rfl⟩, rfl, _, rfl, rfl⟩
  | process_block i o =>
    unfold AllPassFilter.invoke AllPassFilter.process_block allpass_process_block
    rw [he]
    exact ⟨rfl, ⟨_, engine_at_of_heap w _ _ _ _ he rfl⟩, rfl, _, rfl, rfl⟩
  | set_delay x =>
    unfold AllPassFilter.invoke AllPassFilter.set_delay allpass_set_delay
    rw [he]
    exact ⟨rfl, ⟨_, engine_at_of_heap w _ _ _ _ he rfl⟩, rfl, _, rfl, rfl⟩
  | set_gain x =>
    unfold AllPassFilter.invoke AllPassFilter.set_gain allpass_set_gain
    rw [he]
    exact ⟨rfl, ⟨_, engine_at_of_heap w _ _ _ _ he rfl⟩, rfl, _, rfl, rfl⟩
  | set_smoothing x =>
    unfold AllPassFilter.invoke AllPassFilter.set_smoothing allpass_set_smoothing
    rw [he]
    exact ⟨rfl, ⟨_, engine_at_of_heap w _ _ _ _ he rfl⟩, rfl, _, rfl, rfl⟩

/-! ## A null handle, from a rejected capacity or from a move -/

/-- C3: capacity 0 is rejected with `InvalidCapacity`; the constructor then leaves the
object with a null handle and allocates no engine, so that every member call on that
object reaches no engine: it passes `nullptr`, leaves the engines as they were and is
recorded as a fault. -/
theorem zero_capacity_yields_no_engine (w : World α) (initial_delay gain : α) :
    FilterEngine.create w.consts.default_smoothing 0 initial_delay gain
        = Except.error EngineError.InvalidCapacity
    ∧ (AllPassFilter.ctor w 0 initial_delay gain).2.handle = 0
    ∧ (AllPassFilter.ctor w 0 initial_delay gain).1.heap = w.heap
    ∧ (AllPassFilter.ctor w 0 initial_delay gain).1.engine_at
        (AllPassFilter.ctor w 0 initial_delay gain).2.handle = none
    ∧ ∀ c : MethodCall α,
        (((AllPassFilter.ctor w 0 initial_delay gain).2.invoke
            (AllPassFilter.ctor w 0 initial_delay gain).1 c).1.heap = w.heap
        ∧ ((AllPassFilter.ctor w 0 initial_delay gain).2.invoke
            (AllPassFilter.ctor w 0 initial_delay gain).1 c).1.fault = true
        ∧ ∃ k, ((AllPassFilter.ctor w 0 initial_delay gain).2.invoke
            (AllPassFilter.ctor w 0 initial_delay gain).1 c).1.calls
              = (AllPassFilter.ctor w 0 initial_delay gain).1.calls ++ [k]
            ∧ k.handle_arg = some 0) := by
  have hc : FilterEngine.create w.consts.default_smoothing 0 initial_delay gain
      = Except.error EngineError.InvalidCapacity := by
    simp [FilterEngine.create]
  have hctor : AllPassFilter.ctor w 0 initial_delay gain
      = ({ w with calls := w.calls ++ [FfiCall.create 0 initial_delay gain 0] }, { handle := 0 }) := by
    simp [AllPassFilter.ctor, allpass_create, hc]
  rw [hctor]
  refine ⟨hc, rfl, rfl, rfl, ?_⟩
  intro c
  cases c <;>
    simp [AllPassFilter.invoke, AllPassFilter.process, AllPassFilter.process_block,
      AllPassFilter.set_delay, AllPassFilter.set_gain, AllPassFilter.set_smoothing,
      allpass_process, allpass_process_block, allpass_set_delay, allpass_set_gain,
      allpass_set_smoothing, World.engine_at, FfiCall.handle_arg]

/-- C4 (as stated, refuted): the object of a small program is created with a non-null
handle, is then the source of a move construction, and its `process` passes `nullptr` to
`allpass_process`, which is recorded as a fault. -/
theorem moved_from_object_passes_null :
    demo_small.2.handle ≠ 0
    ∧ (demo_small.2.move_ctor.2.process demo_small.1 1).world.calls
        = [FfiCall.create 4 2 (1 / 2) 1, FfiCall.process 0 1]
    ∧ (demo_small.2.move_ctor.2.process demo_small.1 1).world.fault = true := by
  decide!

/-- C4 (amended): an object whose handle addresses an engine, and which is neither moved
from nor destroyed, passes that same non-null handle to the engine in every call of
`process`, `process_block`, `set_delay`, `set_gain` and `set_smoothing`, one engine call
per member call; the handle still addresses an engine afterwards, the member `handle` is
unchanged and no fault is recorded. -/
theorem members_pass_live_handle (self : AllPassFilter) (w : World α) (e : FilterEngine α)
    (he : w.engine_at self.handle = some e) (cs : List (MethodCall α)) :
    self.handle ≠ 0
    ∧ (self.invoke_all w cs).2 = self
    ∧ (∃ e1, (self.invoke_all w cs).1.engine_at self.handle = some e1)
    ∧ (self.invoke_all w cs).1.fault = w.fault
    ∧ ∃ ks, (self.invoke_all w cs).1.calls = w.calls ++ ks ∧ ks.length = cs.length
        ∧ ∀ k ∈ ks, k.handle_arg = some self.handle := by
  refine ⟨engine_at_ne_zero w _ e he, ?_⟩
  induction cs generalizing w e with
  | nil => exact ⟨rfl, ⟨e, he⟩, rfl, [], by simp [AllPassFilter.invoke_all], rfl, by simp⟩
  | cons c cs ih =>
    obtain ⟨hs, ⟨e1, he1⟩, hf, k, hk, hka⟩ := invoke_spec self w e he c
    simp only [AllPassFilter.invoke_all]
    rw [hs]
    obtain ⟨h1, h2, h3, ks, h4, h5, h6⟩ := ih (self.invoke w c).1 e1 he1
    refine ⟨h1, h2, h3.trans hf, k :: ks, ?_, by simp [h5], ?_⟩
    · rw [h4, hk]; simp
    · intro k1 hk1
      rcases List.mem_cons.mp hk1 with rfl | hk1
      · exact hka
      · exact h6 k1 hk1

/-- Witness for C4 (amended): the object of the small program and two member calls. -/
theorem members_pass_live_handle_witness :
    demo_small.2.handle ≠ 0
    ∧ (demo_small.2.invoke_all demo_small.1 [MethodCall.process 1, MethodCall.set_delay 3]).2
        = demo_small.2
    ∧ (∃ e1, (demo_small.2.invoke_all demo_small.1
        [MethodCall.process 1, MethodCall.set_delay 3]).1.engine_at demo_small.2.handle = some e1)
    ∧ (demo_small.2.invoke_all demo_small.1
        [MethodCall.process 1, MethodCall.set_delay 3]).1.fault = demo_small.1.fault
    ∧ ∃ ks, (demo_small.2.invoke_all demo_small.1
        [MethodCall.process 1, MethodCall.set_delay 3]).1.calls = demo_small.1.calls ++ ks
        ∧ ks.length = [MethodCall.process (1 : ℚ), MethodCall.set_delay 3].length
        ∧ ∀ k ∈ ks, k.handle_arg = some demo_small.2.handle :=
  members_pass_live_handle demo_small.2 demo_small.1
    { capacity := 4, buffer := [0, 0, 0, 0], write_cursor := 0, current_delay := 2,
      target_delay := 2, current_gain := 1 / 2, target_gain := 1 / 2, smoothing_factor := 1 / 2 }
    (by decide!) [MethodCall.process 1, MethodCall.set_delay 3]

/-! ## Block processing against per-sample processing -/

theorem set_getD_self {β : Type} (l : List (Option β)) (i : Nat) (b : β)
    (h : l.getD i none = some b) : l.set i (some b) = l := by
  have hi : i < l.length := by
    by_contra hc
    rw [List.getD_eq_default _ _ (by omega)] at h
    cases h
  apply List.ext_getElem (by simp)
  intro n h1 h2
  by_cases hn : i = n
  · subst hn
    simp [List.getD_eq_getElem?_getD, hi] at h
    simp [h]
  · simp [List.getElem_set_ne hn]

theorem process_each_spec (self : AllPassFilter) (w : World α) (e : FilterEngine α)
    (he : w.engine_at self.handle = some e) (S : List α) :
    (self.process_each w S).value = (e.process_block S).2
    ∧ (self.process_each w S).world.heap
        = w.heap.set (self.handle - 1) (some (e.process_block S).1)
    ∧ (self.process_each w S).world.fault = w.fault
    ∧ (self.process_each w S).self = self := by
  induction S generalizing w e with
  | nil =>
    refine ⟨rfl, ?_, rfl, rfl⟩
    simp only [AllPassFilter.process_each, FilterEngine.process_block]
    exact (set_getD_self _ _ _ (engine_at_getD w _ e he)).symm
  | cons x xs ih =>
    have hp : allpass_process w self.handle x
        = ({ w with
              calls := w.calls ++ [FfiCall.process self.handle x]
              heap := w.heap.set (self.handle - 1) (some (e.process x).1) },
           (e.process x).2) := by
      unfold allpass_process
      rw [he]
    have he1 : (allpass_process w self.handle x).1.engine_at self.handle
        = some (e.process x).1 :=
      engine_at_of_heap w _ _ _ _ he (by rw [hp])
    obtain ⟨h1, h2, h3, h4⟩ := ih (allpass_process w self.handle x).1 (e.process x).1 he1
    simp only [AllPassFilter.process_each, AllPassFilter.process, FilterEngine.process_block]
    refine ⟨?_, ?_, ?_, h4⟩
    · rw [h1, hp]
    · rw [h2, hp]
      simp [List.set_set]
    · rw [h3, hp]

/-- C2: on an object whose handle addresses an engine, `process_block(S, out)` leaves in
`out[0..|S|-1]` exactly the values that `process`, called once per element of `S` in
order from the same starting state, returns, and both leave the same engines behind (and
the same fault record). -/
theorem block_equals_per_sample (self : AllPassFilter) (w : World α) (e : FilterEngine α)
    (he : w.engine_at self.handle = some e) (S out : List α) :
    (self.process_block w S out).value.take S.length = (self.process_each w S).value
    ∧ (self.process_block w S out).world.heap = (self.process_each w S).world.heap
    ∧ (self.process_block w S out).world.fault = (self.process_each w S).world.fault := by
  obtain ⟨h1, h2, h3, -⟩ := process_each_spec self w e he S
  rw [h1, h2, h3]
  unfold AllPassFilter.process_block allpass_process_block
  rw [he]
  rw [List.take_length]
  refine ⟨?_, rfl, rfl⟩
  show List.take S.length ((e.process_block S).2 ++ _) = _
  rw [List.take_append_of_le_length (by rw [process_block_length])]
  rw [List.take_of_length_le (by rw [process_block_length])]

/-- Witness for C2: the object of the small program, the impulse block of main.cpp:21 and
an output vector of five elements (main.cpp:22). -/
theorem block_equals_per_sample_witness :
    (demo_small.2.process_block demo_small.1 [1, 0, 0, 0, 0] [0, 0, 0, 0, 0]).value.take
        ([1, 0, 0, 0, 0] : List ℚ).length
      = (demo_small.2.process_each demo_small.1 [1, 0, 0, 0, 0]).value
    ∧ (demo_small.2.process_block demo_small.1 [1, 0, 0, 0, 0] [0, 0, 0, 0, 0]).world.heap
      = (demo_small.2.process_each demo_small.1 [1, 0, 0, 0, 0]).world.heap
    ∧ (demo_small.2.process_block demo_small.1 [1, 0, 0, 0, 0] [0, 0, 0, 0, 0]).world.fault
      = (demo_small.2.process_each demo_small.1 [1, 0, 0, 0, 0]).world.fault :=
  block_equals_per_sample demo_small.2 demo_small.1
    { capacity := 4, buffer := [0, 0, 0, 0], write_cursor := 0, current_delay := 2,
      target_delay := 2, current_gain := 1 / 2, target_gain := 1 / 2, smoothing_factor := 1 / 2 }
    (by decide!) [1, 0, 0, 0, 0] [0, 0, 0, 0, 0]

/-! ## Clamping in the setters -/

theorem clamp_idem (x lo hi : α) (h : lo ≤ hi) : clamp (clamp x lo hi) lo hi = clamp x lo hi := by
  unfold clamp
  have h1 : max lo (min x hi) ≤ hi := max_le h (min_le_right _ _)
  rw [min_eq_left h1, max_eq_right (le_max_left _ _)]

theorem allpass_process_congr (w1 w2 : World α) (ptr : Nat) (x : α)
    (hh : w1.heap = w2.heap) (hf : w1.fault = w2.fault) :
    (allpass_process w1 ptr x).2 = (allpass_process w2 ptr x).2
    ∧ (allpass_process w1 ptr x).1.heap = (allpass_process w2 ptr x).1.heap
    ∧ (allpass_process w1 ptr x).1.fault = (allpass_process w2 ptr x).1.fault := by
  have he : w1.engine_at ptr = w2.engine_at ptr := by simp [World.engine_at, hh]
  unfold allpass_process
  rw [he]
  cases w2.engine_at ptr with
  | none => exact ⟨rfl, hh, rfl⟩
  | some e => exact ⟨rfl, by simp [hh], hf⟩

theorem process_each_congr (self : AllPassFilter) (w1 w2 : World α)
    (hh : w1.heap = w2.heap) (hf : w1.fault = w2.fault) (S : List α) :
    (self.process_each w1 S).value = (self.process_each w2 S).value := by
  induction S generalizing w1 w2 with
  | nil => rfl
  | cons x xs ih =>
    obtain ⟨h1, h2, h3⟩ := allpass_process_congr w1 w2 self.handle x hh hf
    simp only [AllPassFilter.process_each, AllPassFilter.process]
    rw [h1, ih _ _ h2 h3]

theorem behaves_as_of_eq (self : AllPassFilter) (w1 w2 : World α)
    (hh : w1.heap = w2.heap) (hf : w1.fault = w2.fault) : behaves_as self w1 w2 :=
  ⟨hh, hf, process_each_congr self w1 w2 hh hf⟩

theorem set_gain_behaves (self : AllPassFilter) (w : World α) (x y : α)
    (h : clamp x (-1) 1 = clamp y (-1) 1) :
    behaves_as self (self.set_gain w x).world (self.set_gain w y).world := by
  apply behaves_as_of_eq <;>
    (unfold AllPassFilter.set_gain allpass_set_gain
     cases w.engine_at self.handle <;> simp [FilterEngine.set_gain, h])

theorem set_delay_behaves (self : AllPassFilter) (w : World α) (x y : α)
    (h : ∀ e, w.engine_at self.handle = some e →
      clamp x 0 (e.capacity : α) = clamp y 0 (e.capacity : α)) :
    behaves_as self (self.set_delay w x).world (self.set_delay w y).world := by
  apply behaves_as_of_eq <;>
    (unfold AllPassFilter.set_delay allpass_set_delay
     cases he : w.engine_at self.handle with
     | none => rfl
     | some e => simp [FilterEngine.set_delay, h e he])

/-- C6: through an object whose handle addresses an engine of capacity `capacity`,
`set_gain(x)` leaves the same engine state, and the same outputs of every later run of
`process`, as `set_gain(clamp(x, -1, 1))`, and `set_delay(x)` the same as
`set_delay(clamp(x, 0, capacity))`; in particular `set_gain(2)` behaves as `set_gain(1)`
and `set_delay(-5)` as `set_delay(0)`. -/
theorem clamping_idempotence (self : AllPassFilter) (w : World α) (e : FilterEngine α)
    (he : w.engine_at self.handle = some e) (x : α) :
    behaves_as self (self.set_gain w x).world (self.set_gain w (clamp x (-1) 1)).world
    ∧ behaves_as self (self.set_delay w x).world
        (self.set_delay w (clamp x 0 (e.capacity : α))).world
    ∧ behaves_as self (self.set_gain w 2).world (self.set_gain w 1).world
    ∧ behaves_as self (self.set_delay w (-5)).world (self.set_delay w 0).world := by
  refine ⟨set_gain_behaves self w _ _ ?_, set_delay_behaves self w _ _ ?_,
    set_gain_behaves self w _ _ ?_, set_delay_behaves self w _ _ ?_⟩
  · exact (clamp_idem x (-1) 1 (by norm_num)).symm
  · intro e1 he1
    have : e1 = e := by rw [he] at he1; exact (Option.some.inj he1).symm
    subst this
    exact (clamp_idem x 0 _ (Nat.cast_nonneg _)).symm
  · unfold clamp
    rw [min_eq_right (by norm_num : (1 : α) ≤ 2), min_eq_left (le_refl (1 : α))]
  · intro e1 _
    unfold clamp
    have hc : (0 : α) ≤ (e1.capacity : α) := Nat.cast_nonneg _
    rw [min_eq_left (by linarith : (-5 : α) ≤ (e1.capacity : α)), min_eq_left hc,
      max_eq_left (by norm_num : (-5 : α) ≤ 0), max_eq_left (le_refl (0 : α))]

/-- Witness for C6: the object of the small program (capacity 4) and `x = 7`. -/
theorem clamping_idempotence_witness :
    behaves_as demo_small.2 (demo_small.2.set_gain demo_small.1 7).world
        (demo_small.2.set_gain demo_small.1 (clamp 7 (-1) 1)).world
    ∧ behaves_as demo_small.2 (demo_small.2.set_delay demo_small.1 7).world
        (demo_small.2.set_delay demo_small.1 (clamp 7 0 ((4 : ℕ) : ℚ))).world
    ∧ behaves_as demo_small.2 (demo_small.2.set_gain demo_small.1 2).world
        (demo_small.2.set_gain demo_small.1 1).world
    ∧ behaves_as demo_small.2 (demo_small.2.set_delay demo_small.1 (-5)).world
        (demo_small.2.set_delay demo_small.1 0).world :=
  clamping_idempotence demo_small.2 demo_small.1
    { capacity := 4, buffer := [0, 0, 0, 0], write_cursor := 0, current_delay := 2,
      target_delay := 2, current_gain := 1 / 2, target_gain := 1 / 2, smoothing_factor := 1 / 2 }
    (by decide!) 7

/-! ## The engine at an integral delay -/

theorem smooth_step_self (c s : α) : smooth_step c c s = c := by
  unfold smooth_step
  ring

theorem fmod_natCast (m c : ℕ) : fmod (m : α) (c : α) = ((m % c : ℕ) : α) := by
  unfold fmod
  have hnn : (0 : α) ≤ (m : α) / (c : α) := div_nonneg (Nat.cast_nonneg _) (Nat.cast_nonneg _)
  have hfl : (⌊(m : α) / (c : α)⌋ : ℤ) = ((m / c : ℕ) : ℤ) := by
    rw [← Int.natCast_floor_eq_floor hnn, Nat.floor_div_eq_div]
  rw [hfl]
  have h := Nat.mod_add_div m c
  have h2 : ((m % c : ℕ) : α) + (c : α) * ((m / c : ℕ) : α) = (m : α) := by
    exact_mod_cast h
  rw [Int.cast_natCast]
  linarith

theorem process_integral (e : FilterEngine α) (d : ℕ) (g x : α)
    (hd : d ≤ e.capacity)
    (h1 : e.current_delay = d) (h2 : e.target_delay = d)
    (h3 : e.current_gain = g) (h4 : e.target_gain = g) :
    e.process x
      = ({ e with
            buffer := e.buffer.set e.write_cursor
              (x + g * e.buffer.getD ((e.write_cursor + e.capacity - d) % e.capacity) 0)
            write_cursor := (e.write_cursor + 1) % e.capacity },
         e.buffer.getD ((e.write_cursor + e.capacity - d) % e.capacity) 0
          - g * (x + g * e.buffer.getD ((e.write_cursor + e.capacity - d) % e.capacity) 0)) := by
  have hpos : (e.write_cursor : α) - (d : α) + (e.capacity : α)
      = ((e.write_cursor + e.capacity - d : ℕ) : α) := by
    rw [Nat.cast_sub (by omega), Nat.cast_add]
    ring
  have hd1 : smooth_step e.current_delay e.target_delay e.smoothing_factor = (d : α) := by
    rw [h1, h2, smooth_step_self]
  have hg1 : smooth_step e.current_gain e.target_gain e.smoothing_factor = g := by
    rw [h3, h4, smooth_step_self]
  unfold FilterEngine.process
  simp only [hd1, hg1, hpos, fmod_natCast, Int.floor_natCast, Int.toNat_ofNat, Int.fract_natCast,
    sub_zero, mul_one, mul_zero, add_zero]
  rw [← h1, ← h3]

theorem process_block_getElem? (e : FilterEngine α) (xs : List α) (i : Nat) (x : α)
    (h : xs[i]? = some x) :
    (e.process_block xs).2[i]? = some ((e.process_block (xs.take i)).1.process x).2 := by
  induction xs generalizing e i with
  | nil => simp at h
  | cons y ys ih =>
    cases i with
    | zero =>
      simp only [List.getElem?_cons_zero, Option.some.injEq] at h
      subst h
      simp [FilterEngine.process_block]
    | succ j =>
      simp only [List.getElem?_cons_succ] at h
      simp only [FilterEngine.process_block, List.take_succ_cons, List.getElem?_cons_succ]
      exact ih _ j h

theorem replicate_set_same {β : Type} (n i : Nat) (b : β) :
    (List.replicate n b).set i b = List.replicate n b := by
  apply List.ext_getElem (by simp)
  intro k h1 h2
  by_cases hk : i = k
  · subst hk; simp
  · simp [List.getElem_set_ne hk]

theorem impulse_buffer_getD_succ (capacity k : Nat) :
    ((1 : α) :: List.replicate (capacity - 1) 0).getD (k + 1) 0 = 0 := by
  rw [List.getD_cons_succ, List.getD_eq_getElem?_getD]
  by_cases h : k < capacity - 1
  · simp [h]
  · simp [List.getElem?_eq_none (show (List.replicate (capacity - 1) (0 : α)).length ≤ k by simp; omega)]

theorem impulse_state_quiet (capacity d : Nat) (g s : α) (n : Nat)
    (hn1 : 1 ≤ n) (hnd : n < d) (hd : d ≤ capacity) :
    (impulse_state capacity d g s n).process 0 = (impulse_state capacity d g s (n + 1), 0) := by
  rw [process_integral (impulse_state capacity d g s n) d g 0 hd rfl rfl rfl rfl]
  obtain ⟨m, rfl⟩ : ∃ m, n = m + 1 := ⟨n - 1, by omega⟩
  have hmod : (m + 1) % capacity = m + 1 := Nat.mod_eq_of_lt (by omega)
  have hidx : (m + 1 + capacity - d) % capacity = (m + capacity - d) + 1 := by
    rw [Nat.mod_eq_of_lt (by omega)]
    omega
  simp only [impulse_state, hmod, hidx, impulse_buffer_getD_succ, mul_zero, add_zero, sub_zero,
    List.set_cons_succ, replicate_set_same]

theorem impulse_state_peak (capacity d : Nat) (g s : α) (hd : d ≤ capacity) :
    ((impulse_state capacity d g s d).process 0).2 = 1 - g ^ 2 := by
  rw [process_integral (impulse_state capacity d g s d) d g 0 hd rfl rfl rfl rfl]
  have hidx : (d % capacity + capacity - d) % capacity = 0 := by
    rcases Nat.lt_or_ge d capacity with h | h
    · rw [Nat.mod_eq_of_lt h]
      have : d + capacity - d = capacity := by omega
      rw [this, Nat.mod_self]
    · have : d = capacity := by omega
      subst this
      simp
  simp only [impulse_state, hidx, List.getD_cons_zero]
  ring

theorem process_block_append (e : FilterEngine α) (xs ys : List α) :
    e.process_block (xs ++ ys)
      = (((e.process_block xs).1.process_block ys).1,
         (e.process_block xs).2 ++ ((e.process_block xs).1.process_block ys).2) := by
  induction xs generalizing e with
  | nil => rfl
  | cons z zs ih =>
    rw [List.cons_append]
    simp only [FilterEngine.process_block]
    rw [ih]
    rfl

theorem impulse_state_after (capacity d : Nat) (g s : α) (m : Nat)
    (hm : m + 1 ≤ d) (hd : d ≤ capacity) :
    ((impulse_state capacity d g s 1).process_block (List.replicate m 0)).1
      = impulse_state capacity d g s (m + 1) := by
  induction m with
  | zero => rfl
  | succ k ih =>
    have hsplit : List.replicate (k + 1) (0 : α) = List.replicate k 0 ++ [0] :=
      List.replicate_succ' _ _
    rw [hsplit, process_block_append, ih (by omega)]
    simp only [FilterEngine.process_block]
    rw [impulse_state_quiet capacity d g s (k + 1) (by omega) (by omega) hd]

theorem fresh_state_first (capacity d : Nat) (g s : α) (hc : 1 ≤ capacity) (hd : d ≤ capacity) :
    (fresh_state capacity d g s).process 1 = (impulse_state capacity d g s 1, -g) := by
  rw [process_integral (fresh_state capacity d g s) d g 1 hd rfl rfl rfl rfl]
  obtain ⟨c, rfl⟩ : ∃ c, capacity = c + 1 := ⟨capacity - 1, by omega⟩
  have hz : ∀ k, (List.replicate (c + 1) (0 : α)).getD k 0 = 0 := by
    intro k
    rw [List.getD_eq_getElem?_getD]
    by_cases h : k < c + 1
    · simp [h]
    · simp [List.getElem?_eq_none (show (List.replicate (c + 1) (0 : α)).length ≤ k by simp; omega)]
  simp only [fresh_state, impulse_state, hz, mul_zero, add_zero, zero_sub, mul_one, zero_add]
  simp only [List.replicate_succ, List.set_cons_zero, Nat.add_sub_cancel]

theorem fresh_impulse_outputs (capacity d : Nat) (g s : α) (n : Nat)
    (hd1 : 1 ≤ d) (hd : d ≤ capacity) (hn : d ≤ n) :
    ((fresh_state capacity d g s).process_block (1 :: List.replicate n 0)).2[0]? = some (-g)
    ∧ ((fresh_state capacity d g s).process_block (1 :: List.replicate n 0)).2[d]?
        = some (1 - g ^ 2)
    ∧ ∀ i, 0 < i → i < d →
        ((fresh_state capacity d g s).process_block (1 :: List.replicate n 0)).2[i]? = some 0 := by
  have hfirst := fresh_state_first capacity d g s (by omega) hd
  have hat : ∀ i, 1 ≤ i → i ≤ d →
      ((fresh_state capacity d g s).process_block (1 :: List.replicate n 0)).2[i]?
        = some ((impulse_state capacity d g s i).process 0).2 := by
    intro i hi1 hid
    obtain ⟨j, rfl⟩ : ∃ j, i = j + 1 := ⟨i - 1, by omega⟩
    simp only [FilterEngine.process_block, hfirst, List.getElem?_cons_succ]
    rw [process_block_getElem? _ _ j 0
      (by rw [List.getElem?_replicate, if_pos (by omega)])]
    rw [List.take_replicate, min_eq_left (by omega), impulse_state_after capacity d g s j hid hd]
  refine ⟨?_, ?_, ?_⟩
  · simp only [FilterEngine.process_block, hfirst, List.getElem?_cons_zero]
  · rw [hat d hd1 (le_refl d), impulse_state_peak capacity d g s hd]
  · intro i hi hid
    rw [hat i hi (le_of_lt hid), impulse_state_quiet capacity d g s i hi hid hd]

theorem clamp_of_mem (x lo hi : α) (h1 : lo ≤ x) (h2 : x ≤ hi) : clamp x lo hi = x := by
  unfold clamp
  rw [min_eq_left h2, max_eq_right h1]

theorem clamp_zero_zero (hi : α) : clamp 0 0 hi = 0 := by
  unfold clamp
  exact max_eq_left (min_le_left _ _)

theorem create_in_range (s : α) (capacity d : Nat) (g : α)
    (hc : 1 ≤ capacity) (hd : d ≤ capacity) (hg1 : -1 ≤ g) (hg2 : g ≤ 1) :
    FilterEngine.create s capacity (d : α) g = Except.ok (fresh_state capacity d g s) := by
  unfold FilterEngine.create
  rw [if_neg (by omega), clamp_of_mem (d : α) 0 capacity (Nat.cast_nonneg _) (by exact_mod_cast hd),
    clamp_of_mem g (-1) 1 hg1 hg2]
  rfl

theorem ctor_engine_at (w : World α) (capacity : Nat) (d g : α) (e : FilterEngine α)
    (hc : FilterEngine.create w.consts.default_smoothing capacity d g = Except.ok e) :
    (AllPassFilter.ctor w capacity d g).1.engine_at (AllPassFilter.ctor w capacity d g).2.handle
      = some e
    ∧ (AllPassFilter.ctor w capacity d g).1.consts = w.consts := by
  unfold AllPassFilter.ctor allpass_create
  rw [hc]
  simp [World.engine_at]

theorem impulse_outputs_eq (w : World α) (capacity d : Nat) (g : α) (n : Nat)
    (hc : 1 ≤ capacity) (hd : d ≤ capacity) (hg1 : -1 ≤ g) (hg2 : g ≤ 1) :
    impulse_outputs w capacity (d : α) g n
      = ((fresh_state capacity d g 0).process_block (1 :: List.replicate n 0)).2 := by
  obtain ⟨he, hk⟩ := ctor_engine_at w capacity (d : α) g _
    (create_in_range w.consts.default_smoothing capacity d g hc hd hg1 hg2)
  have he1 : ((AllPassFilter.ctor w capacity (d : α) g).2.set_smoothing
      (AllPassFilter.ctor w capacity (d : α) g).1 0).world.engine_at
        (AllPassFilter.ctor w capacity (d : α) g).2.handle = some (fresh_state capacity d g 0) := by
    apply engine_at_of_heap _ _ _ _ _ he
    unfold AllPassFilter.set_smoothing allpass_set_smoothing
    rw [he]
    simp only [FilterEngine.set_smoothing, fresh_state, clamp_zero_zero]
  unfold impulse_outputs
  exact (process_each_spec _ _ _ he1 _).1

/-- C7 (as stated, refuted): with delay 0 (capacity 4, gain 1/2) the first output is
`-g = -1/2`, whose magnitude is not `1 - g^2 = 3/4`: at `d = 0` the two halves of the
claim speak of the same output index and cannot both hold. -/
theorem impulse_delay_zero_has_no_peak_at_zero :
    (impulse_outputs (World.init demo_consts) 4 0 (1 / 2) 6)[0]? = some (-(1 / 2) : ℚ)
    ∧ ¬ (|(impulse_outputs (World.init demo_consts) 4 0 (1 / 2) 6).getD 0 0|
          = 1 - (1 / 2 : ℚ) ^ 2) := by
  decide!

/-- C7 (amended): for every capacity, every integral delay `d` with `1 ≤ d ≤ capacity`
and every gain `g` in `[-1, 1]`, a newly created engine with the smoothing factor set to 0,
fed the impulse `1` followed by at least `d` zeros, returns `-g` at index 0, zero at the
indices strictly between 0 and `d`, and `1 - g^2` at index `d`, a value that is its own
magnitude. -/
theorem impulse_response (w : World α) (capacity d : Nat) (g : α) (n : Nat)
    (hd1 : 1 ≤ d) (hd : d ≤ capacity) (hg1 : -1 ≤ g) (hg2 : g ≤ 1) (hn : d ≤ n) :
    (impulse_outputs w capacity (d : α) g n)[0]? = some (-g)
    ∧ (impulse_outputs w capacity (d : α) g n)[d]? = some (1 - g ^ 2)
    ∧ |1 - g ^ 2| = 1 - g ^ 2
    ∧ ∀ i, 0 < i → i < d → (impulse_outputs w capacity (d : α) g n)[i]? = some 0 := by
  rw [impulse_outputs_eq w capacity d g n (by omega) hd hg1 hg2]
  obtain ⟨h0, h1, h2⟩ := fresh_impulse_outputs capacity d g 0 n hd1 hd hn
  refine ⟨h0, h1, ?_, h2⟩
  apply abs_of_nonneg
  nlinarith

/-- Witness for C7 (amended): capacity 4, delay 2, gain 1/2, six zeros after the impulse. -/
theorem impulse_response_witness :
    (impulse_outputs (World.init demo_consts) 4 ((2 : ℕ) : ℚ) (1 / 2) 6)[0]? = some (-(1 / 2) : ℚ)
    ∧ (impulse_outputs (World.init demo_consts) 4 ((2 : ℕ) : ℚ) (1 / 2) 6)[2]?
        = some (1 - (1 / 2 : ℚ) ^ 2)
    ∧ |1 - (1 / 2 : ℚ) ^ 2| = 1 - (1 / 2 : ℚ) ^ 2
    ∧ ∀ i, 0 < i → i < 2 →
        (impulse_outputs (World.init demo_consts) 4 ((2 : ℕ) : ℚ) (1 / 2) 6)[i]? = some 0 :=
  impulse_response (World.init demo_consts) 4 2 (1 / 2) 6 (by decide) (by decide)
    (by norm_num) (by norm_num) (by decide)

/-! ## Object lifetimes -/

theorem created_handles_append (l1 l2 : List (FfiCall α)) :
    created_handles (l1 ++ l2) = created_handles l1 ++ created_handles l2 := by
  induction l1 with
  | nil => rfl
  | cons c cs ih => cases c <;> simp [created_handles, ih]

theorem destroyed_handles_append (l1 l2 : List (FfiCall α)) :
    destroyed_handles (l1 ++ l2) = destroyed_handles l1 ++ destroyed_handles l2 := by
  induction l1 with
  | nil => rfl
  | cons c cs ih => cases c <;> simp [destroyed_handles, ih]

theorem held_handles_append (l1 l2 : List Obj) :
    held_handles (l1 ++ l2) = held_handles l1 ++ held_handles l2 := by
  simp [held_handles]

theorem held_handles_set (l : List Obj) (i : Nat) (o o1 : Obj)
    (hi : l[i]? = some o) (h1 : o1.filter.handle = 0) :
    List.Perm (held_handles (l.set i o1) ++ held_handles [o]) (held_handles l) := by
  induction l generalizing i with
  | nil => simp at hi
  | cons a t ih =>
    cases i with
    | zero =>
      simp only [List.getElem?_cons_zero, Option.some.injEq] at hi
      subst hi
      have e1 : held_handles (o1 :: t) = held_handles t := by
        simp [held_handles, h1]
      have e2 : held_handles (a :: t) = held_handles [a] ++ held_handles t := by
        simp [held_handles, List.filter_cons]
        split <;> simp
      rw [List.set_cons_zero, e1, e2]
      exact List.perm_append_comm
    | succ j =>
      simp only [List.getElem?_cons_succ] at hi
      have e1 : held_handles (a :: t.set j o1) = held_handles [a] ++ held_handles (t.set j o1) := by
        simp [held_handles, List.filter_cons]
        split <;> simp
      have e2 : held_handles (a :: t) = held_handles [a] ++ held_handles t := by
        simp [held_handles, List.filter_cons]
        split <;> simp
      rw [List.set_cons_succ, e1, e2, List.append_assoc]
      exact List.Perm.append_left _ (ih j hi)

theorem engine_at_append (w w1 : World α) (l : List (Option (FilterEngine α))) (h : Nat)
    (e : FilterEngine α) (he : w.engine_at h = some e) (hh : w1.heap = w.heap ++ l) :
    w1.engine_at h = some e := by
  have h0 := engine_at_ne_zero w h e he
  have hg := engine_at_getD w h e he
  have hi : h - 1 < w.heap.length := by
    by_contra hc
    rw [List.getD_eq_default _ _ (by omega)] at hg
    cases hg
  unfold World.engine_at
  rw [if_neg h0, hh, List.getD_append _ _ _ _ hi]
  exact hg

theorem engine_at_set_ne (w w1 : World α) (h k : Nat) (v : Option (FilterEngine α))
    (h0 : h ≠ 0) (k0 : k ≠ 0) (hk : h ≠ k) (hh : w1.heap = w.heap.set (k - 1) v) :
    w1.engine_at h = w.engine_at h := by
  unfold World.engine_at
  rw [if_neg h0, if_neg h0, hh, List.getD_eq_getElem?_getD, List.getD_eq_getElem?_getD,
    List.getElem?_set_ne (by omega)]

theorem step_construct_error (p : Program α) (m : Nat) (d g : α) (err : EngineError)
    (hc : FilterEngine.create p.world.consts.default_smoothing m d g = Except.error err) :
    p.step (LifecycleOp.construct m d g)
      = { world := { p.world with calls := p.world.calls ++ [FfiCall.create m d g 0] }
          objects := p.objects ++ [{ filter := { handle := 0 }, destroyed := false }] } := by
  simp [Program.step, AllPassFilter.ctor, allpass_create, hc]

theorem step_construct_ok (p : Program α) (m : Nat) (d g : α) (e : FilterEngine α)
    (hc : FilterEngine.create p.world.consts.default_smoothing m d g = Except.ok e) :
    p.step (LifecycleOp.construct m d g)
      = { world := { p.world with
            heap := p.world.heap ++ [some e]
            calls := p.world.calls ++ [FfiCall.create m d g (p.world.heap.length + 1)] }
          objects := p.objects
            ++ [{ filter := { handle := p.world.heap.length + 1 }, destroyed := false }] } := by
  simp [Program.step, AllPassFilter.ctor, allpass_create, hc]

theorem step_move (p : Program α) (src : Nat) (o : Obj) (hi : p.objects[src]? = some o) :
    p.step (LifecycleOp.move_construct src)
      = { world := p.world
          objects := p.objects.set src { filter := { handle := 0 }, destroyed := o.destroyed }
            ++ [{ filter := { handle := o.filter.handle }, destroyed := false }] } := by
  simp [Program.step, hi, AllPassFilter.move_ctor]

theorem step_destruct_null (p : Program α) (obj : Nat) (o : Obj)
    (hi : p.objects[obj]? = some o) (h0 : o.filter.handle = 0) :
    p.step (LifecycleOp.destruct obj)
      = { world := p.world
          objects := p.objects.set obj { filter := { handle := 0 }, destroyed := true } } := by
  have : o.filter = { handle := 0 } := by
    cases o with
    | mk f d => cases f; simp_all
  simp [Program.step, hi, AllPassFilter.dtor, h0, this]

theorem step_destruct_live (p : Program α) (obj : Nat) (o : Obj) (e : FilterEngine α)
    (hi : p.objects[obj]? = some o) (he : p.world.engine_at o.filter.handle = some e) :
    p.step (LifecycleOp.destruct obj)
      = { world := { p.world with
            calls := p.world.calls ++ [FfiCall.destroy o.filter.handle]
            heap := p.world.heap.set (o.filter.handle - 1) none }
          objects := p.objects.set obj { filter := { handle := 0 }, destroyed := true } } := by
  have h0 := engine_at_ne_zero _ _ _ he
  simp [Program.step, hi, AllPassFilter.dtor, h0, allpass_destroy, he]

theorem lifecycle_init (consts : EngineConsts α) : LifecycleInv (Program.init consts) := by
  constructor <;>
    simp [Program.init, World.init, created_handles, destroyed_handles, held_handles]

theorem held_handles_single_null (d : Bool) :
    held_handles [{ filter := { handle := 0 }, destroyed := d }] = [] := by
  simp [held_handles]

theorem held_handles_single (o : Obj) (h0 : o.filter.handle ≠ 0) :
    held_handles [o] = [o.filter.handle] := by
  simp [held_handles, h0]

theorem mem_held_handles (l : List Obj) (h : Nat) :
    h ∈ held_handles l ↔ h ≠ 0 ∧ ∃ o ∈ l, o.filter.handle = h := by
  simp [held_handles, and_comm]

theorem lifecycle_construct (p : Program α) (hp : LifecycleInv p) (m : Nat) (d g : α) :
    LifecycleInv (p.step (LifecycleOp.construct m d g)) := by
  cases hc : FilterEngine.create p.world.consts.default_smoothing m d g with
  | error err =>
    rw [step_construct_error p m d g err hc]
    have hcr : created_handles (p.world.calls ++ [FfiCall.create m d g 0])
        = created_handles p.world.calls ++ [0] := by
      rw [created_handles_append]; rfl
    have hde : destroyed_handles (p.world.calls ++ [FfiCall.create m d g 0])
        = destroyed_handles p.world.calls := by
      rw [destroyed_handles_append]; simp [destroyed_handles]
    have hhe : held_handles (p.objects ++ [{ filter := { handle := 0 }, destroyed := false }])
        = held_handles p.objects := by
      rw [held_handles_append, held_handles_single_null, List.append_nil]
    have hcf : (created_handles p.world.calls ++ [0]).filter (fun h => h ≠ 0)
        = (created_handles p.world.calls).filter (fun h => h ≠ 0) := by
      simp [List.filter_append]
    refine ⟨?_, ?_, ?_, ?_, ?_, hp.no_fault⟩
    · simp only [hcr, hcf]; exact hp.created_nodup
    · simp only [hcr, hcf, hde, hhe]; exact hp.balance
    · simp only [hcr]
      intro h hh
      rcases List.mem_append.mp hh with hh | hh
      · exact hp.created_le h hh
      · simp at hh; omega
    · simp only [hhe]
      intro h hh
      obtain ⟨e, he⟩ := hp.held_live h hh
      exact ⟨e, he⟩
    · intro o ho hd
      rcases List.mem_append.mp ho with ho | ho
      · exact hp.destroyed_null o ho hd
      · simp at ho; subst ho; rfl
  | ok e =>
    rw [step_construct_ok p m d g e hc]
    have hcr : created_handles
        (p.world.calls ++ [FfiCall.create m d g (p.world.heap.length + 1)])
        = created_handles p.world.calls ++ [p.world.heap.length + 1] := by
      rw [created_handles_append]; rfl
    have hde : destroyed_handles
        (p.world.calls ++ [FfiCall.create m d g (p.world.heap.length + 1)])
        = destroyed_handles p.world.calls := by
      rw [destroyed_handles_append]; simp [destroyed_handles]
    have hhe : held_handles (p.objects
          ++ [{ filter := { handle := p.world.heap.length + 1 }, destroyed := false }])
        = held_handles p.objects ++ [p.world.heap.length + 1] := by
      rw [held_handles_append, held_handles_single _ (by simp)]
    have hcf : (created_handles p.world.calls ++ [p.world.heap.length + 1]).filter
          (fun h => h ≠ 0)
        = (created_handles p.world.calls).filter (fun h => h ≠ 0)
          ++ [p.world.heap.length + 1] := by
      simp [List.filter_append]
    refine ⟨?_, ?_, ?_, ?_, ?_, hp.no_fault⟩
    · simp only [hcr, hcf]
      rw [List.nodup_append]
      refine ⟨hp.created_nodup, List.nodup_singleton _, ?_⟩
      intro a ha hb
      have h1 := hp.created_le a (List.mem_of_mem_filter ha)
      simp at hb
      omega
    · simp only [hcr, hcf, hde, hhe]
      have h1 := hp.balance.append_right [p.world.heap.length + 1]
      refine h1.trans ?_
      rw [List.append_assoc, List.append_assoc]
      exact List.Perm.append_left _ List.perm_append_comm
    · simp only [hcr]
      intro h hh
      rcases List.mem_append.mp hh with hh | hh
      · have := hp.created_le h hh
        simp; omega
      · simp at hh; simp; omega
    · simp only [hhe]
      intro h hh
      rcases List.mem_append.mp hh with hh | hh
      · obtain ⟨e1, he1⟩ := hp.held_live h hh
        exact ⟨e1, engine_at_append p.world _ [some e] h e1 he1 rfl⟩
      · simp at hh
        subst hh
        exact ⟨e, by simp [World.engine_at]⟩
    · intro o ho hd
      rcases List.mem_append.mp ho with ho | ho
      · exact hp.destroyed_null o ho hd
      · simp at ho; subst ho; simp at hd

theorem held_handles_single_congr (o o1 : Obj) (h : o.filter.handle = o1.filter.handle) :
    held_handles [o] = held_handles [o1] := by
  simp [held_handles, h]

theorem lifecycle_held_nodup (p : Program α) (hp : LifecycleInv p) :
    (held_handles p.objects ++ destroyed_handles p.world.calls).Nodup :=
  hp.balance.nodup_iff.mp hp.created_nodup

theorem lifecycle_move (p : Program α) (hp : LifecycleInv p) (src : Nat) :
    LifecycleInv (p.step (LifecycleOp.move_construct src)) := by
  cases hi : p.objects[src]? with
  | none =>
    have : p.step (LifecycleOp.move_construct src) = p := by simp [Program.step, hi]
    rw [this]; exact hp
  | some o =>
    rw [step_move p src o hi]
    have hperm : List.Perm
        (held_handles (p.objects.set src { filter := { handle := 0 }, destroyed := o.destroyed }
          ++ [{ filter := { handle := o.filter.handle }, destroyed := false }]))
        (held_handles p.objects) := by
      rw [held_handles_append,
        held_handles_single_congr { filter := { handle := o.filter.handle }, destroyed := false }
          o rfl]
      exact held_handles_set p.objects src o _ hi rfl
    refine ⟨hp.created_nodup, ?_, hp.created_le, ?_, ?_, hp.no_fault⟩
    · exact hp.balance.trans (hperm.symm.append_right _)
    · intro h hh
      exact hp.held_live h (hperm.mem_iff.mp hh)
    · intro o1 ho1 hd
      rcases List.mem_append.mp ho1 with ho1 | ho1
      · rcases List.mem_or_eq_of_mem_set ho1 with ho1 | ho1
        · exact hp.destroyed_null o1 ho1 hd
        · subst ho1; rfl
      · simp at ho1; subst ho1; simp at hd

theorem lifecycle_destruct (p : Program α) (hp : LifecycleInv p) (obj : Nat) :
    LifecycleInv (p.step (LifecycleOp.destruct obj)) := by
  cases hi : p.objects[obj]? with
  | none =>
    have : p.step (LifecycleOp.destruct obj) = p := by simp [Program.step, hi]
    rw [this]; exact hp
  | some o =>
    have hset := held_handles_set p.objects obj o
      { filter := { handle := 0 }, destroyed := true } hi rfl
    have hnull : ∀ o1 ∈ p.objects.set obj { filter := { handle := 0 }, destroyed := true },
        o1.destroyed = true → o1.filter.handle = 0 := by
      intro o1 ho1 hd
      rcases List.mem_or_eq_of_mem_set ho1 with ho1 | ho1
      · exact hp.destroyed_null o1 ho1 hd
      · subst ho1; rfl
    by_cases h0 : o.filter.handle = 0
    · rw [step_destruct_null p obj o hi h0]
      have hperm : List.Perm
          (held_handles (p.objects.set obj { filter := { handle := 0 }, destroyed := true }))
          (held_handles p.objects) := by
        have : held_handles [o] = [] := by simp [held_handles, h0]
        rw [this, List.append_nil] at hset
        exact hset
      refine ⟨hp.created_nodup, ?_, hp.created_le, ?_, hnull, hp.no_fault⟩
      · exact hp.balance.trans (hperm.symm.append_right _)
      · intro h hh
        exact hp.held_live h (hperm.mem_iff.mp hh)
    · have hmem : o.filter.handle ∈ held_handles p.objects :=
        (mem_held_handles _ _).mpr ⟨h0, o, List.getElem?_mem hi, rfl⟩
      obtain ⟨e, he⟩ := hp.held_live _ hmem
      rw [step_destruct_live p obj o e hi he]
      rw [held_handles_single o h0] at hset
      have hcr : created_handles (p.world.calls ++ [FfiCall.destroy o.filter.handle])
          = created_handles p.world.calls := by
        rw [created_handles_append]; simp [created_handles]
      have hde : destroyed_handles (p.world.calls ++ [FfiCall.destroy o.filter.handle])
          = destroyed_handles p.world.calls ++ [o.filter.handle] := by
        rw [destroyed_handles_append]; rfl
      have hnd : (held_handles (p.objects.set obj { filter := { handle := 0 }, destroyed := true })
          ++ [o.filter.handle]).Nodup :=
        hset.nodup_iff.mpr (List.Nodup.of_append_left (lifecycle_held_nodup p hp))
      refine ⟨?_, ?_, ?_, ?_, hnull, hp.no_fault⟩
      · simp only [hcr]; exact hp.created_nodup
      · simp only [hcr, hde]
        refine hp.balance.trans ?_
        refine (hset.symm.append_right _).trans ?_
        rw [List.append_assoc]
        exact List.Perm.append_left _ List.perm_append_comm
      · simp only [hcr, List.length_set]; exact hp.created_le
      · intro h hh
        have hh1 : h ∈ held_handles p.objects :=
          hset.mem_iff.mp (List.mem_append_left _ hh)
        have hne : h ≠ o.filter.handle := by
          intro heq
          subst heq
          exact (List.nodup_append.mp hnd).2.2 hh (List.mem_singleton_self _)
        obtain ⟨e1, he1⟩ := hp.held_live h hh1
        refine ⟨e1, ?_⟩
        rw [← he1]
        exact engine_at_set_ne p.world _ h o.filter.handle none
          ((mem_held_handles _ _).mp hh1).1 h0 hne rfl

theorem lifecycle_step (p : Program α) (hp : LifecycleInv p) (op : LifecycleOp α) :
    LifecycleInv (p.step op) := by
  cases op with
  | construct m d g => exact lifecycle_construct p hp m d g
  | move_construct src => exact lifecycle_move p hp src
  | destruct obj => exact lifecycle_destruct p hp obj

theorem lifecycle_run (p : Program α) (hp : LifecycleInv p) (ops : List (LifecycleOp α)) :
    LifecycleInv (p.run ops) := by
  induction ops generalizing p with
  | nil => exact hp
  | cons op ops ih => exact ih _ (lifecycle_step p hp op)

theorem held_handles_cons (a : Obj) (t : List Obj) :
    held_handles (a :: t) = held_handles [a] ++ held_handles t := by
  simp [held_handles, List.filter_cons]
  split <;> simp

theorem held_index_inj (l : List Obj) (hn : (held_handles l).Nodup) (i j : Nat) (oi oj : Obj)
    (hi : l[i]? = some oi) (hj : l[j]? = some oj)
    (heq : oi.filter.handle = oj.filter.handle) (h0 : oi.filter.handle ≠ 0) : i = j := by
  induction l generalizing i j with
  | nil => simp at hi
  | cons a t ih =>
    rw [held_handles_cons] at hn
    have hnt : (held_handles t).Nodup := List.Nodup.of_append_right hn
    have hdis := (List.nodup_append.mp hn).2.2
    cases i with
    | zero =>
      cases j with
      | zero => rfl
      | succ j1 =>
        exfalso
        simp only [List.getElem?_cons_zero, Option.some.injEq] at hi
        simp only [List.getElem?_cons_succ] at hj
        subst hi
        refine hdis (a := a.filter.handle) ?_ ?_
        · rw [held_handles_single a h0]; exact List.mem_singleton_self _
        · exact (mem_held_handles _ _).mpr ⟨h0, oj, List.getElem?_mem hj, heq.symm⟩
    | succ i1 =>
      cases j with
      | zero =>
        exfalso
        simp only [List.getElem?_cons_zero, Option.some.injEq] at hj
        simp only [List.getElem?_cons_succ] at hi
        subst hj
        refine hdis (a := a.filter.handle) ?_ ?_
        · rw [held_handles_single a (heq ▸ h0)]; exact List.mem_singleton_self _
        · exact (mem_held_handles _ _).mpr ⟨heq ▸ h0, oi, List.getElem?_mem hi, heq⟩
      | succ j1 =>
        simp only [List.getElem?_cons_succ] at hi hj
        rw [ih hnt i1 j1 hi hj]

/-- C5: in every program built from constructions, move constructions and destructor
runs, no two objects hold the same non-null handle, `allpass_destroy` is called at most
once on any pointer, only on non-null pointers that `allpass_create` returned, and, once
the destructor of every object has run, exactly once on each non-null pointer
`allpass_create` returned; no call addresses a missing engine. -/
theorem single_release (consts : EngineConsts α) (ops : List (LifecycleOp α)) :
    (∀ (i j : Nat) (oi oj : Obj),
        ((Program.init consts).run ops).objects[i]? = some oi →
        ((Program.init consts).run ops).objects[j]? = some oj →
        oi.filter.handle = oj.filter.handle → oi.filter.handle ≠ 0 → i = j)
    ∧ (∀ h, (destroyed_handles ((Program.init consts).run ops).world.calls).count h ≤ 1)
    ∧ (∀ h ∈ destroyed_handles ((Program.init consts).run ops).world.calls,
        h ≠ 0 ∧ h ∈ created_handles ((Program.init consts).run ops).world.calls)
    ∧ ((∀ o ∈ ((Program.init consts).run ops).objects, o.destroyed = true) →
        ∀ h ∈ created_handles ((Program.init consts).run ops).world.calls, h ≠ 0 →
          (destroyed_handles ((Program.init consts).run ops).world.calls).count h = 1)
    ∧ ((Program.init consts).run ops).world.fault = false := by
  have hp := lifecycle_run (Program.init consts) (lifecycle_init consts) ops
  have hnd := lifecycle_held_nodup _ hp
  have hdn : (destroyed_handles ((Program.init consts).run ops).world.calls).Nodup :=
    List.Nodup.of_append_right hnd
  refine ⟨?_, ?_, ?_, ?_, hp.no_fault⟩
  · intro i j oi oj hi hj heq h0
    exact held_index_inj _ (List.Nodup.of_append_left hnd) i j oi oj hi hj heq h0
  · intro h
    exact List.nodup_iff_count_le_one.mp hdn h
  · intro h hh
    have h1 := hp.balance.mem_iff.mpr (List.mem_append_right _ hh)
    rw [List.mem_filter] at h1
    exact ⟨by simpa using h1.2, h1.1⟩
  · intro hall h hh h0
    have hheld : held_handles ((Program.init consts).run ops).objects = [] := by
      rw [List.eq_nil_iff_forall_not_mem]
      intro a ha
      obtain ⟨ha0, o, ho, hoa⟩ := (mem_held_handles _ _).mp ha
      exact ha0 (hoa ▸ hp.destroyed_null o ho (hall o ho))
    have h1 : h ∈ destroyed_handles ((Program.init consts).run ops).world.calls := by
      have := hp.balance.mem_iff.mp (List.mem_filter.mpr ⟨hh, by simpa using h0⟩)
      rw [hheld, List.nil_append] at this
      exact this
    exact List.count_eq_one_of_mem hdn h1

/-! ## The delay line under a sustained signal -/

theorem half_delay_first_outputs :
    ((half_state (1 / 2 : ℚ)).process_block [1, 0, -1, 0, 1, 0]).2
      = [0, 1 / 2, 1 / 2, -(1 / 2), -(1 / 2), 1 / 2] := by
  decide!

end AllpassFilter
